import Mathlib

/-!
Verification development for the hybrid MPI + multithreaded simulator
implementation (`HybridSimulatorImpl`, `src/mpi/model/hybrid-simulator-impl.cc`).

The C++ source is shallowly embedded: 32-bit unsigned arithmetic is `Nat`
with an explicit `% 4294967296`, simulated time (`ns3::Time`, int64 ticks)
is `Int` where it is only compared, and link delays (nonnegative times)
are `Nat` ticks.  Components of the surrounding framework that are not part
of this repository slice (MtpInterface, LogicalProcess, MPI transport) are
abstracted to explicit inputs, as documented at each definition.
-/

namespace HybridSim

/-- 2^32, the modulus of C++ `uint32_t` arithmetic. -/
def u32Mod : Nat := 4294967296

/-! ## LBTS records and one iteration of the `Run` loop (lines 246-296)

`Run` all-gathers one `LbtsMessage` per MPI rank, then folds over the
array starting at index 0: taking the minimum of the smallest times,
the `uint32_t` sums of the rx/tx counters, and the conjunction of the
finished flags.  We model one loop iteration as a pure function of the
gathered array (`lbts`) and of the local dispatcher's finished flag
(`MtpInterface::isFinished()`, abstracted to the Boolean `localFinished`). -/

/-- The fixed-size LBTS record exchanged by `MPI_Allgather`
(`LbtsMessage(rxCount, txCount, rank, finished, smallestTime)`). -/
structure LbtsMessage where
  rx : Nat
  tx : Nat
  rank : Nat
  finished : Bool
  smallest : Int
deriving Repr, DecidableEq

/-- The quantities one iteration of `HybridSimulatorImpl::Run` computes from
the gathered LBTS array: the granted time passed to `SetSmallestTime`, the
transient-message totals, the global-finished flag, and whether
`MtpInterface::ProcessOneRound()` was invoked in this iteration. -/
structure IterResult where
  grant : Int
  totRx : Nat
  totTx : Nat
  globalFinished : Bool
  processed : Bool
deriving Repr, DecidableEq

/-- The body of the `for (uint32_t i = 1; i < m_systemCount; ++i)` reduction
loop of `Run` (lines 274-283), acting on the accumulator
`(m_smallestTime, totRx, totTx, m_globalFinished)`. -/
def lbtsStep (a : Int × Nat × Nat × Bool) (m : LbtsMessage) : Int × Nat × Nat × Bool :=
  ⟨if m.smallest < a.1 then m.smallest else a.1,
   (a.2.1 + m.rx) % u32Mod,
   (a.2.2.1 + m.tx) % u32Mod,
   a.2.2.2 && m.finished⟩

/-- One iteration of the `while (!m_globalFinished)` body of
`HybridSimulatorImpl::Run`, lines 264-295 of the source: the reduction is
seeded with `m_pLBTS[0]` and folded over indices `1..systemCount-1`; the
rx/tx accumulators are `uint32_t`, hence the mod after every addition.
The source always has `systemCount >= 1`; the `[]` case is unreachable. -/
def runIteration (lbts : List LbtsMessage) (localFinished : Bool) : IterResult :=
  match lbts with
  | [] => ⟨0, 0, 0, false, false⟩
  | m0 :: rest =>
    let acc := rest.foldl lbtsStep ⟨m0.smallest, m0.rx, m0.tx, m0.finished⟩
    let totRx := acc.2.1
    let totTx := acc.2.2.1
    let globalFinished := (acc.2.2.2 && decide (totRx = totTx))
    ⟨acc.1, totRx, totTx, globalFinished,
     decide (totRx = totTx) && !localFinished⟩

/-! ## Destroy queue: `Destroy`, `Remove`, `IsExpired`, `GetDelayLeft` -/

/-- A destroy-queue entry as observed by `Destroy()`: the underlying
`EventImpl`'s cancelled flag plus an abstract payload identifier standing
for the `Invoke()` callback. -/
structure DestroyEvent where
  cancelled : Bool
  payload : Nat
deriving Repr, DecidableEq

/-- `HybridSimulatorImpl::Destroy` (lines 91-103): pop the front of
`m_destroyEvents` while nonempty, invoking each event whose cancelled flag
is unset.  Returns the list of invoked events in invocation order, paired
with the final state of the destroy queue. -/
def Destroy : List DestroyEvent → List DestroyEvent × List DestroyEvent
  | [] => ([], [])
  | e :: rest =>
    let r := Destroy rest
    (if e.cancelled then r.1 else e :: r.1, r.2)

/-- An `ns3::EventId`: the `Ptr<EventImpl>` (an abstract pointer, `none` for
null), the timestamp, the context, and the uid.  `EventId::operator==`
compares all four fields, which `DecidableEq` mirrors. -/
structure EventId where
  impl : Option Nat
  ts : Nat
  ctx : Nat
  uid : Nat
deriving Repr, DecidableEq

/-- `EventId::DESTROY`, the uid sentinel of destroy events (value 2 in ns-3;
only its distinguishedness matters here). -/
def DESTROY : Nat := 2

/-- The `uid == EventId::DESTROY` branch of `HybridSimulatorImpl::Remove`
(lines 185-196): scan `m_destroyEvents` front to back, erase the first
entry equal to `id` and break; leave the queue unchanged when no entry
matches. -/
def RemoveDestroy (q : List EventId) (id : EventId) : List EventId :=
  match q with
  | [] => []
  | e :: rest => if e = id then rest else e :: RemoveDestroy rest id

/-- The `uid == EventId::DESTROY` branch of `HybridSimulatorImpl::IsExpired`
(lines 215-230): true when the impl pointer is null or the event is
cancelled; otherwise false exactly when the id is still present in
`m_destroyEvents`.  The cancelled flags of live `EventImpl`s are the map
`cancelled` from abstract pointers to Booleans. -/
def IsExpiredDestroy (q : List EventId) (cancelled : Nat → Bool) (id : EventId) : Bool :=
  match id.impl with
  | none => true
  | some p => if cancelled p then true else decide (id ∉ q)

/-- `HybridSimulatorImpl::IsExpired` (lines 212-235): the destroy branch is
concrete; for other uids the call delegates to the current logical
process, abstracted as the predicate `lpExpired`. -/
def IsExpired (q : List EventId) (cancelled : Nat → Bool) (lpExpired : EventId → Bool)
    (id : EventId) : Bool :=
  if id.uid = DESTROY then IsExpiredDestroy q cancelled id else lpExpired id

/-- `HybridSimulatorImpl::GetDelayLeft` (lines 308-319): `TimeStep(0)` for an
expired id, otherwise the current logical process's
`GetDelayLeft(id)`, abstracted as `lpDelay`. -/
def GetDelayLeft (q : List EventId) (cancelled : Nat → Bool) (lpExpired : EventId → Bool)
    (lpDelay : EventId → Int) (id : EventId) : Int :=
  if IsExpired q cancelled lpExpired id then 0 else lpDelay id

/-! ## Topology model and `Partition` (lines 368-523)

The partitioner walks `NodeContainer::GetGlobal()`: node ids are the
positions `0..numNodes-1` (as `NodeList` guarantees), each node has a list
of net devices, a device may be attached to a channel, a channel has a
`Delay` attribute and a list of attached devices whose nodes the BFS
enumerates (`channel->GetDevice(j)->GetNode()`).  System ids are the map
`sys : Nat -> Nat`; the BFS visited array is `visited : Nat -> Bool`. -/

/-- A net device: its `IsPointToPoint()` flag and the channel it is
attached to (`none` models a null `GetChannel()`). -/
structure NetDevice where
  isPointToPoint : Bool
  channel : Option Nat
deriving Repr, DecidableEq

/-- A channel: its `Delay` attribute (ticks) and the node ids of its
attached devices, in `GetDevice(j)` order. -/
structure Channel where
  delay : Nat
  nodeIds : List Nat
deriving Repr, DecidableEq

/-- The read-only global topology the partitioner traverses. -/
structure Topology where
  numNodes : Nat
  numChannels : Nat
  devices : Nat → List NetDevice
  channels : Nat → Channel

/-! ### Auto-lookahead (lines 377-418) -/

/-- The delays pushed for one node in the auto-lookahead collection loop
(lines 386-401): for each device, skip it when its channel is null, and
push the channel's delay when the device is point-to-point. -/
def p2pDelaysOfNode (topo : Topology) (n : Nat) : List Nat :=
  (topo.devices n).filterMap fun d =>
    match d.channel with
    | none => none
    | some c => if d.isPointToPoint then some (topo.channels c).delay else none

/-- The full multiset collected by the auto-lookahead loop: nodes in
`NodeContainer::GetGlobal()` order, only those whose system id equals
`m_myId`.  A point-to-point channel joining two locally-owned nodes is
reached from both endpoints and contributes its delay twice. -/
def collectDelays (topo : Topology) (sys : Nat → Nat) (myId : Nat) : List Nat :=
  (List.range topo.numNodes).flatMap fun n =>
    if sys n = myId then p2pDelaysOfNode topo n else []

/-- The median selection of lines 405-416, applied to an already sorted
list: `0` when empty, the middle element for an odd length, the mean of
the two middle elements for an even length. -/
def medianOfSorted (l : List Nat) : Nat :=
  if l.length = 0 then 0
  else if l.length % 2 = 1 then l.getD (l.length / 2) 0
  else (l.getD (l.length / 2 - 1) 0 + l.getD (l.length / 2) 0) / 2

/-- The auto-lookahead computation of `Partition` (lines 377-418): when the
`MinLookahead` attribute `mlk` is zero, collect the local point-to-point
delays, `std::sort` them (modelled by `insertionSort`, which produces the
sorted permutation) and take the median; otherwise keep `mlk`. -/
def autoLookahead (topo : Topology) (sys : Nat → Nat) (myId mlk : Nat) : Nat :=
  if mlk = 0 then medianOfSorted (List.insertionSort (· ≤ ·) (collectDelays topo sys myId))
  else mlk

/-- Restatement of the spec sentence for the refinement check of the
auto-lookahead multiset: the delays of every locally-owned point-to-point
link, one entry per channel (a link being locally owned when some locally
owned node has a point-to-point device attached to it). -/
def specLinkDelays (topo : Topology) (sys : Nat → Nat) (myId : Nat) : List Nat :=
  ((List.range topo.numChannels).filter fun c =>
    (List.range topo.numNodes).any fun n =>
      sys n = myId && (topo.devices n).any fun d =>
        d.isPointToPoint && d.channel = some c).map
    fun c => (topo.channels c).delay

/-- The spec-side auto lookahead: the median of the sorted per-link delay
multiset. -/
def specAutoLookahead (topo : Topology) (sys : Nat → Nat) (myId : Nat) : Nat :=
  medianOfSorted (List.insertionSort (· ≤ ·) (specLinkDelays topo sys myId))

/-! ### The BFS (lines 420-471) -/

/-- The nodes pushed onto the BFS queue while processing one popped node
(lines 439-468).  `visited` is the array after the popped node was marked,
and `sysN` is the popped node's system id as read by the push condition
`node->GetSystemId() == m_myId` — the source reads the CURRENT node's
system id (just overwritten at line 435), not the neighbour's. -/
def bfsPushes (topo : Topology) (myId mlk : Nat) (node : Nat) (visited : Nat → Bool)
    (sysN : Nat) : List Nat :=
  (topo.devices node).flatMap fun d =>
    match d.channel with
    | none => []
    | some c =>
      if d.isPointToPoint && decide (mlk ≤ (topo.channels c).delay) then []
      else (topo.channels c).nodeIds.filter fun r => !visited r && decide (sysN = myId)

/-- The inner `while (!q.empty())` BFS loop (lines 428-469): pop the front,
mark it visited, stamp its system id with `localSystemId << 16 | m_myId`,
and push the neighbours selected by `bfsPushes`.  `fuel` bounds the number
of pops (the C++ loop has no bound; all theorems hold for every
sufficient fuel). -/
def bfsLoop (topo : Topology) (myId mlk lid : Nat) :
    Nat → List Nat → (Nat → Bool) → (Nat → Nat) → (Nat → Bool) × (Nat → Nat)
  | 0, _, visited, sys => (visited, sys)
  | _ + 1, [], visited, sys => (visited, sys)
  | fuel + 1, node :: rest, visited, sys =>
    let visited' := fun x => if x = node then true else visited x
    let newSys := lid <<< 16 ||| myId
    let sys' := fun x => if x = node then newSys else sys x
    bfsLoop topo myId mlk lid fuel (rest ++ bfsPushes topo myId mlk node visited' newSys)
      visited' sys'

/-- The outer loop of the BFS partition (lines 421-471): scan the global
node list in order; for each unvisited locally-owned node, increment
`localSystemId` and run the BFS seeded with that node.  Returns the final
`localSystemId` (the number of LPs handed to `EnableNew`) and the final
system-id map. -/
def partitionLoop (topo : Topology) (myId mlk fuel : Nat) :
    List Nat → Nat → (Nat → Bool) → (Nat → Nat) → Nat × (Nat → Nat)
  | [], lid, _, sys => (lid, sys)
  | n :: rest, lid, visited, sys =>
    if !visited n && decide (sys n = myId) then
      let st := bfsLoop topo myId mlk (lid + 1) fuel [n] visited sys
      partitionLoop topo myId mlk fuel rest (lid + 1) st.1 st.2
    else
      partitionLoop topo myId mlk fuel rest lid visited sys

/-- The partitioning phase of `HybridSimulatorImpl::Partition`: the
auto-lookahead derivation followed by the BFS relabelling.  Returns the
number of LPs (`systemCount`, the count passed to
`MtpInterface::EnableNew`) and the final system-id map. -/
def Partition (topo : Topology) (sys : Nat → Nat) (myId mlk fuel : Nat) :
    Nat × (Nat → Nat) :=
  partitionLoop topo myId (autoLookahead topo sys myId mlk) fuel
    (List.range topo.numNodes) 0 (fun _ => false) sys

/-! ## Event migration (lines 491-522)

After `EnableNew`, `Partition` drains the staging LP's scheduler
(`GetPendingEvents`) into a freshly created transfer scheduler and then
drains that, dispatching each event.  An ns-3 `Scheduler` is a priority
queue on the key `(m_ts, m_uid)`; we model its state as the bag of held
events (a list) whose `RemoveNext` extracts the leftmost minimal-key
event and whose `Insert` prepends.  The logical-process operations the
dispatch calls into are not part of this repository slice; each is
modelled from the spec at its use site below. -/

/-- A `Scheduler::Event` held by the staging LP: key fields `m_ts`,
`m_context`, `m_uid` plus an abstract payload id for `impl`. -/
structure MigEvent where
  ts : Nat
  ctx : Nat
  uid : Nat
  payload : Nat
deriving Repr, DecidableEq

/-- `Simulator::NO_CONTEXT` (0xffffffff). -/
def NO_CONTEXT : Nat := 4294967295

/-- The scheduler's key order: `(m_ts, m_uid)` lexicographically. -/
def keyLe (a b : MigEvent) : Prop :=
  a.ts < b.ts ∨ (a.ts = b.ts ∧ a.uid ≤ b.uid)

instance : DecidableRel keyLe := fun a b => by
  unfold keyLe
  exact inferInstance

/-- `Scheduler::RemoveNext` on the bag model: extract the leftmost event
of minimal `(m_ts, m_uid)` key; `none` when empty. -/
def removeNext : List MigEvent → Option (MigEvent × List MigEvent)
  | [] => none
  | e :: es =>
    match removeNext es with
    | none => some (e, [])
    | some (m, rest) => if keyLe e m then some (e, es) else some (m, e :: rest)

theorem removeNext_eq_none {l : List MigEvent} : removeNext l = none ↔ l = [] := by
  cases l with
  | nil => simp [removeNext]
  | cons e es =>
    simp only [removeNext]
    cases removeNext es with
    | none => simp
    | some p =>
      by_cases hk : keyLe e p.1 <;> simp [hk]

theorem removeNext_length : ∀ {l : List MigEvent} {m rest},
    removeNext l = some (m, rest) → rest.length + 1 = l.length := by
  intro l
  induction l with
  | nil => intro m rest h; simp [removeNext] at h
  | cons e es ih =>
    intro m rest h
    simp only [removeNext] at h
    cases hes : removeNext es with
    | none =>
      rw [hes] at h
      have : es = [] := removeNext_eq_none.mp hes
      subst this
      simp at h
      simp [← h.2]
    | some p =>
      rw [hes] at h
      by_cases hk : keyLe e p.1
      · simp [hk] at h
        simp [← h.2]
      · simp [hk] at h
        have := ih (show removeNext es = some (p.1, p.2) by rw [hes])
        simp [← h.2]
        omega

/-- Fuel-bounded iteration of `RemoveNext`; each successful extraction
shrinks the bag by one (`removeNext_length`), so `fuel = l.length` drains
the whole bag. -/
def drainAllFuel : Nat → List MigEvent → List MigEvent
  | 0, _ => []
  | fuel + 1, l =>
    match removeNext l with
    | none => []
    | some (m, rest) => m :: drainAllFuel fuel rest

/-- A `while (!IsEmpty()) RemoveNext()` drain of a scheduler: the held
events in extraction order. -/
def drainAll (l : List MigEvent) : List MigEvent :=
  drainAllFuel l.length l

/-- The destination and timestamp assignment of the transfer loop
(lines 501-522), processing the drained events in order.  Per claim: a
zero-timestamp event is invoked immediately (`InvokeNow`) on
`GetSystem(ctx == NO_CONTEXT ? 0 : sysId(ctx) >> 16)`; a nonzero-timestamp
event with no context goes through `Schedule(TimeStep(ts), impl)`, which
lands on the current (staging, index 0) LP at time `now0 + ts`
(modelled from the spec: `LogicalProcess::Schedule` inserts at
`now + delay`); otherwise `ScheduleWithContext(ctx, TimeStep(ts), impl)`
routes to `GetSystem(sysId(ctx) >> 16)` when `MtpInterface::GetSize() > 1`
and to the current LP when the size is 1 (lines 146-162), landing at
`now0 + ts` (modelled from the spec: `scheduleWithContext` stamps
`sender.now + delay`).  Results: `invoked` is the `(lp, event)` list of
immediate invocations in order, `scheduled` the `(lp, timestamp, event)`
list of re-schedules in order. -/
structure MigrationResult where
  invoked : List (Nat × MigEvent)
  scheduled : List (Nat × Nat × MigEvent)
deriving Repr, DecidableEq

def processMigrated (sys : Nat → Nat) (size now0 : Nat) : List MigEvent → MigrationResult
  | [] => ⟨[], []⟩
  | e :: rest =>
    let r := processMigrated sys size now0 rest
    if e.ts = 0 then
      ⟨(if e.ctx = NO_CONTEXT then 0 else sys e.ctx >>> 16, e) :: r.invoked, r.scheduled⟩
    else if e.ctx = NO_CONTEXT then
      ⟨r.invoked, (0, now0 + e.ts, e) :: r.scheduled⟩
    else
      ⟨r.invoked,
       (if size = 1 then 0 else sys e.ctx >>> 16, now0 + e.ts, e) :: r.scheduled⟩

/-- The order in which the transfer loop processes the staged events:
drain the staging scheduler, `Insert` each event into the transfer
scheduler (prepend on the bag model), drain the transfer scheduler. -/
def migrationOrder (pending : List MigEvent) : List MigEvent :=
  drainAll (drainAll pending).reverse

/-- The whole event-migration phase of `Partition` (lines 491-522). -/
def migrate (pending : List MigEvent) (sys : Nat → Nat) (size now0 : Nat) :
    MigrationResult :=
  processMigrated sys size now0 (migrationOrder pending)

/-! ## Theorems -/

/-- C7: `Destroy()` removes events from the destroy queue in FIFO order
until it is empty, invoking exactly those whose cancelled flag is not set
(so a cancelled destroy event is never invoked), and leaves the destroy
queue empty. -/
theorem Destroy_drains_destroy_queue (q : List DestroyEvent) :
    Destroy q = (q.filter fun e => !e.cancelled, []) := by
  induction q with
  | nil => rfl
  | cons e rest ih =>
    simp only [Destroy, ih, List.filter_cons]
    by_cases h : e.cancelled <;> simp [h]

/-- C8: for an `EventId` with `uid == DESTROY`, `IsExpired` returns true
when the event pointer is null or the event is cancelled; otherwise it
returns false exactly when the id is still present in the destroy queue,
and true when the id is absent (already removed or executed). -/
theorem IsExpired_destroy_cases (q : List EventId) (cancelled : Nat → Bool)
    (lpExpired : EventId → Bool) (id : EventId) (hu : id.uid = DESTROY) :
    ((id.impl = none → IsExpired q cancelled lpExpired id = true)
      ∧ (∀ p, id.impl = some p → cancelled p = true →
          IsExpired q cancelled lpExpired id = true))
    ∧ (∀ p, id.impl = some p → cancelled p = false →
        (id ∈ q → IsExpired q cancelled lpExpired id = false)
        ∧ (id ∉ q → IsExpired q cancelled lpExpired id = true)) := by
  refine ⟨⟨fun hn => ?_, fun p hp hc => ?_⟩, fun p hp hc => ⟨fun hmem => ?_, fun hmem => ?_⟩⟩
  all_goals simp [IsExpired, hu, IsExpiredDestroy, *]

theorem IsExpired_destroy_cases_witness :
    (⟨some 4, 9, 1, DESTROY⟩ : EventId).uid = DESTROY
    ∧ IsExpired [⟨some 4, 9, 1, DESTROY⟩] (fun _ => false) (fun _ => true)
        ⟨some 4, 9, 1, DESTROY⟩ = false
    ∧ IsExpired [] (fun _ => false) (fun _ => true) ⟨some 4, 9, 1, DESTROY⟩ = true := by
  refine ⟨rfl, ?_, ?_⟩
  · exact (IsExpired_destroy_cases [⟨some 4, 9, 1, DESTROY⟩] (fun _ => false)
      (fun _ => true) ⟨some 4, 9, 1, DESTROY⟩ rfl).2 4 rfl rfl |>.1 (by decide)
  · exact (IsExpired_destroy_cases [] (fun _ => false)
      (fun _ => true) ⟨some 4, 9, 1, DESTROY⟩ rfl).2 4 rfl rfl |>.2 (by decide)

/-- C9 counterexample: `Remove` on a destroy id is NOT unconditionally
idempotent.  When the same `EventId` occurs twice in the destroy queue
(reachable by passing the same `EventImpl*` to `ScheduleDestroy` twice),
the first `Remove` erases only the first occurrence, so a second
identical `Remove` erases the second one as well. -/
theorem RemoveDestroy_not_idempotent :
    RemoveDestroy
        (RemoveDestroy [⟨some 5, 7, 3, DESTROY⟩, ⟨some 5, 7, 3, DESTROY⟩]
          ⟨some 5, 7, 3, DESTROY⟩) ⟨some 5, 7, 3, DESTROY⟩
      ≠ RemoveDestroy [⟨some 5, 7, 3, DESTROY⟩, ⟨some 5, 7, 3, DESTROY⟩]
          ⟨some 5, 7, 3, DESTROY⟩ := by
  decide

theorem RemoveDestroy_eq_erase (q : List EventId) (id : EventId) :
    RemoveDestroy q id = q.erase id := by
  induction q with
  | nil => rfl
  | cons e rest ih =>
    by_cases h : e = id
    · simp [RemoveDestroy, h, List.erase_cons_head]
    · simp only [RemoveDestroy, if_neg h, ih, List.erase_cons]
      simp [h]

/-- C9 (amended): `Remove` on a destroy id deletes the first matching
entry of the destroy queue and leaves the other entries and their order
unchanged (it equals `List.erase`); removing an id with no matching entry
is a no-op; and, provided the id occurs at most once in the queue,
calling `Remove` twice with the same id equals calling it once. -/
theorem RemoveDestroy_first_match (q : List EventId) (id : EventId)
    (hcount : q.count id ≤ 1) :
    RemoveDestroy q id = q.erase id
    ∧ (id ∉ q → RemoveDestroy q id = q)
    ∧ RemoveDestroy (RemoveDestroy q id) id = RemoveDestroy q id := by
  refine ⟨RemoveDestroy_eq_erase q id, fun hmem => ?_, ?_⟩
  · rw [RemoveDestroy_eq_erase, List.erase_of_not_mem hmem]
  · rw [RemoveDestroy_eq_erase, RemoveDestroy_eq_erase]
    have hz : (q.erase id).count id = 0 := by
      rw [List.count_erase_self]
      omega
    rw [List.erase_of_not_mem]
    rw [← List.count_pos_iff]
    omega

theorem RemoveDestroy_first_match_witness :
    ([⟨some 5, 7, 3, DESTROY⟩] : List EventId).count ⟨some 6, 7, 3, DESTROY⟩ ≤ 1
    ∧ RemoveDestroy (RemoveDestroy [⟨some 5, 7, 3, DESTROY⟩] ⟨some 6, 7, 3, DESTROY⟩)
        ⟨some 6, 7, 3, DESTROY⟩
      = RemoveDestroy [⟨some 5, 7, 3, DESTROY⟩] ⟨some 6, 7, 3, DESTROY⟩ :=
  ⟨by decide,
   (RemoveDestroy_first_match [⟨some 5, 7, 3, DESTROY⟩] ⟨some 6, 7, 3, DESTROY⟩
     (by decide)).2.2⟩

/-- C10: `GetDelayLeft(id)` returns `TimeStep(0)` for every expired id —
in particular for a cancelled destroy event and for a destroy id no
longer present in the destroy queue — and delegates to the current LP's
delay computation exactly when the id is not expired. -/
theorem GetDelayLeft_zero_iff_expired (q : List EventId) (cancelled : Nat → Bool)
    (lpExpired : EventId → Bool) (lpDelay : EventId → Int) (id : EventId) :
    (IsExpired q cancelled lpExpired id = true →
      GetDelayLeft q cancelled lpExpired lpDelay id = 0)
    ∧ (IsExpired q cancelled lpExpired id = false →
      GetDelayLeft q cancelled lpExpired lpDelay id = lpDelay id)
    ∧ (∀ p, id.uid = DESTROY → id.impl = some p → cancelled p = true →
      GetDelayLeft q cancelled lpExpired lpDelay id = 0)
    ∧ (∀ p, id.uid = DESTROY → id.impl = some p → id ∉ q →
      GetDelayLeft q cancelled lpExpired lpDelay id = 0) := by
  refine ⟨fun h => ?_, fun h => ?_, fun p hu hp hc => ?_, fun p hu hp hmem => ?_⟩
  · simp [GetDelayLeft, h]
  · simp [GetDelayLeft, h]
  · simp [GetDelayLeft, IsExpired, hu, IsExpiredDestroy, hp, hc]
  · simp only [GetDelayLeft, IsExpired, hu, if_pos rfl, IsExpiredDestroy, hp]
    by_cases hc : cancelled p <;> simp [hc, hmem]

theorem GetDelayLeft_zero_iff_expired_witness :
    IsExpired ([] : List EventId) (fun _ => false) (fun _ => true)
        ⟨some 4, 9, 1, DESTROY⟩ = true
    ∧ GetDelayLeft [] (fun _ => false) (fun _ => true) (fun _ => 42)
        ⟨some 4, 9, 1, DESTROY⟩ = 0 :=
  ⟨by decide,
   (GetDelayLeft_zero_iff_expired [] (fun _ => false) (fun _ => true) (fun _ => 42)
     ⟨some 4, 9, 1, DESTROY⟩).1 (by decide)⟩

/-- C2: in an iteration of the `Run` loop, `MtpInterface::ProcessOneRound()`
is invoked if and only if the all-gathered totals satisfy
`totRx == totTx` and the local dispatcher is not finished; in particular
no round is executed while `totRx != totTx`. -/
theorem Run_round_iff_no_transients (lbts : List LbtsMessage) (localFinished : Bool)
    (hne : lbts ≠ []) :
    ((runIteration lbts localFinished).processed = true ↔
      (runIteration lbts localFinished).totRx = (runIteration lbts localFinished).totTx
        ∧ localFinished = false)
    ∧ ((runIteration lbts localFinished).totRx ≠ (runIteration lbts localFinished).totTx →
      (runIteration lbts localFinished).processed = false) := by
  match lbts with
  | [] => exact absurd rfl hne
  | m0 :: rest =>
    constructor
    · simp [runIteration]
    · intro h
      simp only [runIteration] at h ⊢
      simp [h]

theorem Run_round_iff_no_transients_witness :
    ([⟨3, 3, 0, false, 10⟩] : List LbtsMessage) ≠ []
    ∧ (runIteration [⟨3, 3, 0, false, 10⟩] false).processed = true :=
  ⟨by decide,
   ((Run_round_iff_no_transients [⟨3, 3, 0, false, 10⟩] false (by decide)).1).mpr
     (by decide)⟩

theorem lbtsFold_char (rest : List LbtsMessage) :
    ∀ (g : Int) (rx tx : Nat) (f : Bool), rx < u32Mod → tx < u32Mod →
    (rest.foldl lbtsStep ⟨g, rx, tx, f⟩).1 ≤ g
    ∧ (∀ m ∈ rest, (rest.foldl lbtsStep ⟨g, rx, tx, f⟩).1 ≤ m.smallest)
    ∧ ((rest.foldl lbtsStep ⟨g, rx, tx, f⟩).1 = g
        ∨ ∃ m ∈ rest, (rest.foldl lbtsStep ⟨g, rx, tx, f⟩).1 = m.smallest)
    ∧ (rest.foldl lbtsStep ⟨g, rx, tx, f⟩).2.1
        = (rx + (rest.map LbtsMessage.rx).sum) % u32Mod
    ∧ (rest.foldl lbtsStep ⟨g, rx, tx, f⟩).2.2.1
        = (tx + (rest.map LbtsMessage.tx).sum) % u32Mod
    ∧ (rest.foldl lbtsStep ⟨g, rx, tx, f⟩).2.2.2
        = (f && rest.all LbtsMessage.finished) := by
  induction rest with
  | nil =>
    intro g rx tx f hrx htx
    refine ⟨le_refl g, by simp, Or.inl rfl, ?_, ?_, by simp⟩
    · simpa using (Nat.mod_eq_of_lt hrx).symm
    · simpa using (Nat.mod_eq_of_lt htx).symm
  | cons m rest ih =>
    intro g rx tx f hrx htx
    have hMpos : 0 < u32Mod := by norm_num [u32Mod]
    have ih' := ih (if m.smallest < g then m.smallest else g)
      ((rx + m.rx) % u32Mod) ((tx + m.tx) % u32Mod) (f && m.finished)
      (Nat.mod_lt _ hMpos) (Nat.mod_lt _ hMpos)
    simp only [List.foldl_cons, lbtsStep] at ih' ⊢
    obtain ⟨h1, h2, h3, h4, h5, h6⟩ := ih'
    refine ⟨?_, ?_, ?_, ?_, ?_, ?_⟩
    · exact le_trans h1 (by split <;> omega)
    · intro x hx
      rcases List.mem_cons.mp hx with h | h
      · subst h
        exact le_trans h1 (by split <;> omega)
      · exact h2 x h
    · rcases h3 with h | ⟨x, hx, h⟩
      · by_cases hlt : m.smallest < g
        · exact Or.inr ⟨m, List.mem_cons_self m rest, by rw [h, if_pos hlt]⟩
        · exact Or.inl (by rw [h, if_neg hlt])
      · exact Or.inr ⟨x, List.mem_cons_of_mem m hx, h⟩
    · rw [h4, Nat.mod_add_mod, List.map_cons, List.sum_cons]
      ring_nf
    · rw [h5, Nat.mod_add_mod, List.map_cons, List.sum_cons]
      ring_nf
    · rw [h6, List.all_cons, Bool.and_assoc]

/-- C3: in a `Run`-loop iteration over a nonempty gathered LBTS array, the
grant passed to `SetSmallestTime` is the minimum of the ranks' smallest
times (it is a lower bound on them and attained by some rank), `totRx`
and `totTx` are the `uint32_t` sums (mod 2^32; the plain sums whenever
they fit in 32 bits) of the rx and tx counters, and the global-finished
flag is set exactly when every rank's finished flag is true and
`totRx == totTx`. -/
theorem Run_lbts_reduction (m0 : LbtsMessage) (rest : List LbtsMessage) (lf : Bool)
    (hrx : m0.rx < u32Mod) (htx : m0.tx < u32Mod) :
    (∀ m ∈ m0 :: rest, (runIteration (m0 :: rest) lf).grant ≤ m.smallest)
    ∧ (∃ m ∈ m0 :: rest, (runIteration (m0 :: rest) lf).grant = m.smallest)
    ∧ (runIteration (m0 :: rest) lf).totRx
        = ((m0 :: rest).map LbtsMessage.rx).sum % u32Mod
    ∧ (runIteration (m0 :: rest) lf).totTx
        = ((m0 :: rest).map LbtsMessage.tx).sum % u32Mod
    ∧ (((m0 :: rest).map LbtsMessage.rx).sum < u32Mod →
        (runIteration (m0 :: rest) lf).totRx = ((m0 :: rest).map LbtsMessage.rx).sum)
    ∧ (((m0 :: rest).map LbtsMessage.tx).sum < u32Mod →
        (runIteration (m0 :: rest) lf).totTx = ((m0 :: rest).map LbtsMessage.tx).sum)
    ∧ ((runIteration (m0 :: rest) lf).globalFinished = true ↔
        (∀ m ∈ m0 :: rest, m.finished = true)
          ∧ (runIteration (m0 :: rest) lf).totRx = (runIteration (m0 :: rest) lf).totTx) := by
  obtain ⟨h1, h2, h3, h4, h5, h6⟩ :=
    lbtsFold_char rest m0.smallest m0.rx m0.tx m0.finished hrx htx
  simp only [runIteration]
  refine ⟨?_, ?_, ?_, ?_, ?_, ?_, ?_⟩
  · intro m hm
    rcases List.mem_cons.mp hm with h | h
    · subst h
      exact h1
    · exact h2 m h
  · rcases h3 with h | ⟨x, hx, h⟩
    · exact ⟨m0, List.mem_cons_self m0 rest, h⟩
    · exact ⟨x, List.mem_cons_of_mem m0 hx, h⟩
  · simpa using h4
  · simpa using h5
  · intro hs
    rw [h4, List.map_cons, List.sum_cons]
    exact Nat.mod_eq_of_lt (by simpa using hs)
  · intro hs
    rw [h5, List.map_cons, List.sum_cons]
    exact Nat.mod_eq_of_lt (by simpa using hs)
  · rw [h6]
    simp only [Bool.and_eq_true, decide_eq_true_eq, List.all_eq_true]
    constructor
    · rintro ⟨⟨hf0, hfr⟩, heq⟩
      refine ⟨fun m hm => ?_, heq⟩
      rcases List.mem_cons.mp hm with h | h
      · exact h ▸ hf0
      · exact hfr m h
    · rintro ⟨hf, heq⟩
      exact ⟨⟨hf m0 (List.mem_cons_self m0 rest),
        fun m hm => hf m (List.mem_cons_of_mem m0 hm)⟩, heq⟩

theorem Run_lbts_reduction_witness :
    (⟨2, 3, 0, true, 7⟩ : LbtsMessage).rx < u32Mod
    ∧ (runIteration [⟨2, 3, 0, true, 7⟩, ⟨4, 3, 1, true, 5⟩] false).totRx = 6
    ∧ (runIteration [⟨2, 3, 0, true, 7⟩, ⟨4, 3, 1, true, 5⟩] false).grant = 5 := by
  have h := Run_lbts_reduction ⟨2, 3, 0, true, 7⟩ [⟨4, 3, 1, true, 5⟩] false
    (by norm_num [u32Mod]) (by norm_num [u32Mod])
  refine ⟨by norm_num [u32Mod], ?_, ?_⟩
  · have := h.2.2.2.2.1 (by norm_num [u32Mod])
    simpa using this
  · obtain ⟨m, hm, hg⟩ := h.2.1
    have hle := h.1
    have g5 : (runIteration [⟨2, 3, 0, true, 7⟩, ⟨4, 3, 1, true, 5⟩] false).grant ≤ 5 :=
      hle ⟨4, 3, 1, true, 5⟩ (by simp)
    rcases List.mem_cons.mp hm with h' | h'
    · rw [h'] at hg
      simp at hg
      omega
    · simp at h'
      rw [h'] at hg
      simpa using hg

theorem combineSys_shiftRight (lid myId : Nat) (hm : myId < 65536) :
    (lid <<< 16 ||| myId) >>> 16 = lid := by
  apply Nat.eq_of_testBit_eq
  intro i
  rw [Nat.testBit_shiftRight, Nat.testBit_or, Nat.testBit_shiftLeft]
  have h65536 : (65536 : Nat) = 2 ^ 16 := by norm_num
  have h1 : myId.testBit (16 + i) = false := by
    apply Nat.testBit_lt_two_pow
    calc myId < 2 ^ 16 := h65536 ▸ hm
    _ ≤ 2 ^ (16 + i) := Nat.pow_le_pow_right (by norm_num) (by omega)
  rw [h1, Bool.or_false]
  have h2 : 16 + i - 16 = i := by omega
  simp [h2, Nat.le_add_right]

theorem combineSys_ne (lid myId : Nat) (hm : myId < 65536) (hl : 1 ≤ lid) :
    lid <<< 16 ||| myId ≠ myId := by
  intro h
  have h1 := congrArg (· >>> 16) h
  simp only [combineSys_shiftRight lid myId hm] at h1
  rw [Nat.shiftRight_eq_div_pow] at h1
  have : myId / 2 ^ 16 = 0 := Nat.div_eq_of_lt (by norm_num at hm ⊢; omega)
  omega

theorem bfsPushes_of_ne (topo : Topology) (myId mlk node : Nat) (visited : Nat → Bool)
    (sysN : Nat) (h : sysN ≠ myId) :
    bfsPushes topo myId mlk node visited sysN = [] := by
  unfold bfsPushes
  rw [List.flatMap_eq_nil_iff]
  intro x hx
  match x with
  | ⟨p2p, none⟩ => rfl
  | ⟨p2p, some c⟩ =>
    simp only [h]
    split
    · rfl
    · simp

theorem bfsLoop_single (topo : Topology) (myId mlk lid fuel node : Nat)
    (visited : Nat → Bool) (sys : Nat → Nat) (hm : myId < 65536) (hl : 1 ≤ lid) :
    bfsLoop topo myId mlk lid (fuel + 1) [node] visited sys =
      (fun x => if x = node then true else visited x,
       fun x => if x = node then lid <<< 16 ||| myId else sys x) := by
  show bfsLoop topo myId mlk lid fuel
      ([] ++ bfsPushes topo myId mlk node _ (lid <<< 16 ||| myId)) _ _ = _
  rw [bfsPushes_of_ne topo myId mlk node _ _ (combineSys_ne lid myId hm hl)]
  cases fuel <;> rfl

theorem partitionLoop_char (topo : Topology) (myId mlk fuel : Nat) (hm : myId < 65536)
    (hf : 1 ≤ fuel) :
    ∀ (ns : List Nat) (lid : Nat) (visited : Nat → Bool) (sys : Nat → Nat),
    ns.Nodup → (∀ m ∈ ns, visited m = false) →
    lid ≤ (partitionLoop topo myId mlk fuel ns lid visited sys).1
    ∧ (∀ x, x ∉ ns → (partitionLoop topo myId mlk fuel ns lid visited sys).2 x = sys x)
    ∧ (∀ x ∈ ns,
        (sys x = myId → ∃ k, lid < k ∧ k ≤ (partitionLoop topo myId mlk fuel ns lid visited sys).1
          ∧ (partitionLoop topo myId mlk fuel ns lid visited sys).2 x = k <<< 16 ||| myId)
        ∧ (sys x ≠ myId → (partitionLoop topo myId mlk fuel ns lid visited sys).2 x = sys x)) := by
  obtain ⟨f, rfl⟩ : ∃ f, fuel = f + 1 := ⟨fuel - 1, by omega⟩
  intro ns
  induction ns with
  | nil =>
    intro lid visited sys hnd hvis
    exact ⟨le_refl _, fun x _ => rfl, fun x hx => absurd hx (List.not_mem_nil x)⟩
  | cons n rest ih =>
    intro lid visited sys hnd hvis
    have hvn : visited n = false := hvis n (List.mem_cons_self n rest)
    have hnr : n ∉ rest := (List.nodup_cons.mp hnd).1
    by_cases hlocal : sys n = myId
    · have htest : (!visited n && decide (sys n = myId)) = true := by
        simp [hvn, hlocal]
      have hstep : partitionLoop topo myId mlk (f + 1) (n :: rest) lid visited sys
          = partitionLoop topo myId mlk (f + 1) rest (lid + 1)
              (fun x => if x = n then true else visited x)
              (fun x => if x = n then (lid + 1) <<< 16 ||| myId else sys x) := by
        simp only [partitionLoop, htest, if_true,
          bfsLoop_single topo myId mlk (lid + 1) f n visited sys hm (by omega)]
      rw [hstep]
      obtain ⟨ih1, ih2, ih3⟩ := ih (lid + 1)
        (fun x => if x = n then true else visited x)
        (fun x => if x = n then (lid + 1) <<< 16 ||| myId else sys x)
        (List.nodup_cons.mp hnd).2
        (fun m hmr => by
          have : m ≠ n := fun he => hnr (he ▸ hmr)
          simp [this, hvis m (List.mem_cons_of_mem n hmr)])
      refine ⟨by omega, ?_, ?_⟩
      · intro x hx
        have hxn : x ≠ n := fun he => hx (he ▸ List.mem_cons_self n rest)
        have hxr : x ∉ rest := fun he => hx (List.mem_cons_of_mem n he)
        rw [ih2 x hxr]
        simp [hxn]
      · intro x hx
        rcases List.mem_cons.mp hx with hxe | hxr
        · subst hxe
          refine ⟨fun _ => ⟨lid + 1, by omega, ih1, ?_⟩, fun hne => absurd hlocal hne⟩
          rw [ih2 x hnr]
          simp
        · have hxn : x ≠ n := fun he => hnr (he ▸ hxr)
          obtain ⟨h3a, h3b⟩ := ih3 x hxr
          refine ⟨fun hx' => ?_, fun hx' => ?_⟩
          · obtain ⟨k, hk1, hk2, hk3⟩ := h3a (by simp only [if_neg hxn]; exact hx')
            exact ⟨k, by omega, hk2, hk3⟩
          · rw [h3b (by simp only [if_neg hxn]; exact hx')]
            simp only [if_neg hxn]
    · have htest : (!visited n && decide (sys n = myId)) = false := by
        simp [hlocal]
      have hstep : partitionLoop topo myId mlk (f + 1) (n :: rest) lid visited sys
          = partitionLoop topo myId mlk (f + 1) rest lid visited sys := by
        simp only [partitionLoop, htest]
        rfl
      rw [hstep]
      obtain ⟨ih1, ih2, ih3⟩ := ih lid visited sys (List.nodup_cons.mp hnd).2
        (fun m hmr => hvis m (List.mem_cons_of_mem n hmr))
      refine ⟨ih1, ?_, ?_⟩
      · intro x hx
        exact ih2 x (fun he => hx (List.mem_cons_of_mem n he))
      · intro x hx
        rcases List.mem_cons.mp hx with hxe | hxr
        · subst hxe
          exact ⟨fun hx' => absurd hx' hlocal, fun _ => ih2 x hnr⟩
        · exact ih3 x hxr

/-- C5: after `Partition()` runs, every node whose initial system id equals
this process's rank has been assigned an LP local id (the high 16 bits of
its new system id) in `[1, numLPs]`, where `numLPs` is the LP count the
partitioner passes to `MtpInterface::EnableNew`; the system id of every
node owned by a different rank is left unchanged. -/
theorem Partition_coverage (topo : Topology) (sys0 : Nat → Nat) (myId mlk fuel : Nat)
    (hm : myId < 65536) (hf : 1 ≤ fuel) (i : Nat) (hi : i < topo.numNodes) :
    (sys0 i = myId →
      1 ≤ (Partition topo sys0 myId mlk fuel).2 i >>> 16
      ∧ (Partition topo sys0 myId mlk fuel).2 i >>> 16 ≤ (Partition topo sys0 myId mlk fuel).1)
    ∧ (sys0 i ≠ myId → (Partition topo sys0 myId mlk fuel).2 i = sys0 i) := by
  obtain ⟨h1, h2, h3⟩ := partitionLoop_char topo myId
    (autoLookahead topo sys0 myId mlk) fuel hm hf
    (List.range topo.numNodes) 0 (fun _ => false) sys0
    (List.nodup_range topo.numNodes) (fun m _ => rfl)
  have hmem : i ∈ List.range topo.numNodes := List.mem_range.mpr hi
  obtain ⟨h3a, h3b⟩ := h3 i hmem
  constructor
  · intro hloc
    obtain ⟨k, hk1, hk2, hk3⟩ := h3a hloc
    unfold Partition
    rw [hk3, combineSys_shiftRight k myId hm]
    omega
  · intro hne
    exact h3b hne

theorem Partition_coverage_witness :
    ((fun n => if n = 1 then 9 else 0) : Nat → Nat) 0 = 0
    ∧ (Partition ⟨2, 0, fun _ => [], fun _ => ⟨0, []⟩⟩
        (fun n => if n = 1 then 9 else 0) 0 1 1).2 0 >>> 16 = 1
    ∧ (Partition ⟨2, 0, fun _ => [], fun _ => ⟨0, []⟩⟩
        (fun n => if n = 1 then 9 else 0) 0 1 1).2 1 = 9 := by
  have h := Partition_coverage ⟨2, 0, fun _ => [], fun _ => ⟨0, []⟩⟩
    (fun n => if n = 1 then 9 else 0) 0 1 1 (by norm_num) (le_refl 1)
  refine ⟨rfl, ?_, ?_⟩
  · have h0 := (h 0 (by norm_num)).1 rfl
    have hub : (Partition ⟨2, 0, fun _ => [], fun _ => ⟨0, []⟩⟩
        (fun n => if n = 1 then 9 else 0) 0 1 1).1 = 1 := by decide
    omega
  · exact (h 1 (by norm_num)).2 (by decide)

/-- The S3 scenario topology: a chain of four locally-owned nodes
A-B-C-D (ids 0-3) joined by point-to-point links with delays 1, 10, 1. -/
def chainTopo : Topology :=
  { numNodes := 4
    numChannels := 3
    devices := fun n =>
      match n with
      | 0 => [⟨true, some 0⟩]
      | 1 => [⟨true, some 0⟩, ⟨true, some 1⟩]
      | 2 => [⟨true, some 1⟩, ⟨true, some 2⟩]
      | 3 => [⟨true, some 2⟩]
      | _ => []
    channels := fun c =>
      match c with
      | 0 => ⟨1, [0, 1]⟩
      | 1 => ⟨10, [1, 2]⟩
      | 2 => ⟨1, [2, 3]⟩
      | _ => ⟨0, []⟩ }

/-- C1 (divergence witness): on the S3 chain with `minLookahead = 5`, the
BFS of `Partition` produces FOUR singleton LPs — local ids 1, 2, 3, 4 for
A, B, C, D — instead of the two LPs {A,B} and {C,D} the claim requires:
the push condition at line 463 reads `node->GetSystemId()` (the current
node's system id, freshly overwritten to `localSystemId << 16 | m_myId`
at line 435) instead of `remote->GetSystemId()`, so it is always false
and no node is ever enqueued.  In particular A and B end up in different
LPs, refuting the claimed grouping. -/
theorem Partition_chain_four_singleton_lps :
    (Partition chainTopo (fun _ => 0) 0 5 8).1 = 4
    ∧ (Partition chainTopo (fun _ => 0) 0 5 8).2 0 >>> 16 = 1
    ∧ (Partition chainTopo (fun _ => 0) 0 5 8).2 1 >>> 16 = 2
    ∧ (Partition chainTopo (fun _ => 0) 0 5 8).2 2 >>> 16 = 3
    ∧ (Partition chainTopo (fun _ => 0) 0 5 8).2 3 >>> 16 = 4 := by
  decide

/-- Counterexample topology for the auto-lookahead multiset: nodes 0 and 1
are locally owned (system id 0), node 2 belongs to rank 1; channel 0 is a
point-to-point link between the two local nodes with delay 1, channel 1 a
point-to-point link from node 1 to the remote node with delay 3. -/
def lkTopo : Topology :=
  { numNodes := 3
    numChannels := 2
    devices := fun n =>
      match n with
      | 0 => [⟨true, some 0⟩]
      | 1 => [⟨true, some 0⟩, ⟨true, some 1⟩]
      | 2 => [⟨true, some 1⟩]
      | _ => []
    channels := fun c =>
      match c with
      | 0 => ⟨1, [0, 1]⟩
      | 1 => ⟨3, [1, 2]⟩
      | _ => ⟨0, []⟩ }

/-- System-id map of `lkTopo`: node 2 is remote (rank 1). -/
def lkSys : Nat → Nat := fun n => if n = 2 then 1 else 0

/-- C4 counterexample: the code collects one delay per point-to-point
DEVICE of each locally-owned node, so the delay-1 link joining the two
local nodes of `lkTopo` is counted twice; the collected multiset is
{1, 1, 3} with median 1, while the spec's per-link multiset is {1, 3}
with median (1+3)/2 = 2.  The resulting lookahead differs from the one
the claim prescribes. -/
theorem autoLookahead_not_link_median :
    autoLookahead lkTopo lkSys 0 0 = 1
    ∧ specAutoLookahead lkTopo lkSys 0 = 2
    ∧ autoLookahead lkTopo lkSys 0 0 ≠ specAutoLookahead lkTopo lkSys 0 := by
  refine ⟨?_, ?_, ?_⟩ <;> decide

/-- C4 (amended): when the `MinLookahead` attribute is zero, the resulting
lookahead equals the median — the middle element for an odd count, the
mean of the two middle elements for an even count, zero for an empty
collection — of ANY sorted arrangement of the collected multiset, where
the multiset holds one entry per point-to-point device of each
locally-owned node (so a point-to-point link between two locally-owned
nodes contributes its delay twice). -/
theorem autoLookahead_is_device_median (topo : Topology) (sys : Nat → Nat) (myId : Nat)
    (S : List Nat) (hperm : S.Perm (collectDelays topo sys myId))
    (hsort : S.Sorted (· ≤ ·)) :
    autoLookahead topo sys myId 0 = medianOfSorted S := by
  have h1 : List.insertionSort (· ≤ ·) (collectDelays topo sys myId) = S :=
    List.eq_of_perm_of_sorted
      ((List.perm_insertionSort (· ≤ ·) (collectDelays topo sys myId)).trans hperm.symm)
      (List.sorted_insertionSort (· ≤ ·) (collectDelays topo sys myId)) hsort
  unfold autoLookahead
  rw [if_pos rfl, h1]

theorem autoLookahead_is_device_median_witness :
    ([1, 1, 3] : List Nat).Perm (collectDelays lkTopo lkSys 0)
    ∧ autoLookahead lkTopo lkSys 0 0 = medianOfSorted [1, 1, 3] :=
  ⟨by decide,
   autoLookahead_is_device_median lkTopo lkSys 0 [1, 1, 3] (by decide) (by decide)⟩

theorem keyLe_refl (a : MigEvent) : keyLe a a := Or.inr ⟨rfl, le_refl _⟩

theorem keyLe_of_not_keyLe {a b : MigEvent} (h : ¬keyLe a b) : keyLe b a := by
  unfold keyLe at h ⊢
  omega

theorem keyLe_trans {a b c : MigEvent} (h1 : keyLe a b) (h2 : keyLe b c) : keyLe a c := by
  unfold keyLe at h1 h2 ⊢
  omega

theorem removeNext_perm : ∀ {l : List MigEvent} {m rest},
    removeNext l = some (m, rest) → List.Perm (m :: rest) l := by
  intro l
  induction l with
  | nil => intro m rest h; simp [removeNext] at h
  | cons e es ih =>
    intro m rest h
    simp only [removeNext] at h
    cases hes : removeNext es with
    | none =>
      rw [hes] at h
      have : es = [] := removeNext_eq_none.mp hes
      subst this
      simp at h
      rw [h.1, ← h.2]
    | some p =>
      rw [hes] at h
      by_cases hk : keyLe e p.1
      · simp [hk] at h
        rw [h.1, ← h.2]
      · simp [hk] at h
        have hp : List.Perm (p.1 :: p.2) es := ih (by rw [hes])
        rw [← h.1, ← h.2]
        exact (List.Perm.swap e p.1 p.2).trans (hp.cons e)

theorem removeNext_min : ∀ {l : List MigEvent} {m rest},
    removeNext l = some (m, rest) → ∀ x ∈ l, keyLe m x := by
  intro l
  induction l with
  | nil => intro m rest h; simp [removeNext] at h
  | cons e es ih =>
    intro m rest h x hx
    simp only [removeNext] at h
    cases hes : removeNext es with
    | none =>
      rw [hes] at h
      have : es = [] := removeNext_eq_none.mp hes
      subst this
      simp at h hx
      rw [hx, ← h.1]
      exact keyLe_refl e
    | some p =>
      rw [hes] at h
      by_cases hk : keyLe e p.1
      · simp [hk] at h
        rcases List.mem_cons.mp hx with hxe | hxs
        · rw [hxe, ← h.1]
          exact keyLe_refl e
        · exact h.1 ▸ keyLe_trans hk (ih (by rw [hes]) x hxs)
      · simp [hk] at h
        rcases List.mem_cons.mp hx with hxe | hxs
        · rw [hxe, ← h.1]
          exact keyLe_of_not_keyLe hk
        · exact h.1 ▸ ih (by rw [hes]) x hxs

theorem drainAllFuel_perm : ∀ (fuel : Nat) (l : List MigEvent), l.length ≤ fuel →
    List.Perm (drainAllFuel fuel l) l := by
  intro fuel
  induction fuel with
  | zero =>
    intro l hl
    have : l = [] := List.eq_nil_of_length_eq_zero (by omega)
    subst this
    exact List.Perm.refl _
  | succ fuel ih =>
    intro l hl
    cases h : removeNext l with
    | none =>
      have : l = [] := removeNext_eq_none.mp h
      subst this
      simp [drainAllFuel, removeNext]
    | some p =>
      have hlen := removeNext_length (show removeNext l = some (p.1, p.2) by rw [h])
      have hperm := removeNext_perm (show removeNext l = some (p.1, p.2) by rw [h])
      simp only [drainAllFuel, h]
      exact ((ih p.2 (by omega)).cons p.1).trans hperm

theorem drainAllFuel_sorted : ∀ (fuel : Nat) (l : List MigEvent), l.length ≤ fuel →
    (drainAllFuel fuel l).Sorted keyLe := by
  intro fuel
  induction fuel with
  | zero => intro l hl; simp [drainAllFuel]
  | succ fuel ih =>
    intro l hl
    cases h : removeNext l with
    | none => simp [drainAllFuel, h]
    | some p =>
      have hlen := removeNext_length (show removeNext l = some (p.1, p.2) by rw [h])
      have hperm := removeNext_perm (show removeNext l = some (p.1, p.2) by rw [h])
      have hmin := removeNext_min (show removeNext l = some (p.1, p.2) by rw [h])
      simp only [drainAllFuel, h, List.sorted_cons]
      refine ⟨fun b hb => ?_, ih p.2 (by omega)⟩
      have hb2 : b ∈ p.2 := (drainAllFuel_perm fuel p.2 (by omega)).mem_iff.mp hb
      exact hmin b (hperm.subset (List.mem_cons_of_mem p.1 hb2))

theorem drainAll_perm (l : List MigEvent) : List.Perm (drainAll l) l :=
  drainAllFuel_perm l.length l (le_refl _)

theorem drainAll_sorted (l : List MigEvent) : (drainAll l).Sorted keyLe :=
  drainAllFuel_sorted l.length l (le_refl _)

theorem migrationOrder_perm (pending : List MigEvent) :
    List.Perm (migrationOrder pending) pending :=
  (drainAll_perm _).trans ((drainAll pending).reverse_perm.trans (drainAll_perm pending))

theorem migrationOrder_sorted (pending : List MigEvent) :
    (migrationOrder pending).Sorted keyLe :=
  drainAll_sorted _

theorem processMigrated_char (sys : Nat → Nat) (size : Nat) (hsize : size ≠ 1) :
    ∀ l : List MigEvent,
    (processMigrated sys size 0 l).invoked
      = (l.filter fun e => e.ts == 0).map
          (fun e => (if e.ctx = NO_CONTEXT then 0 else sys e.ctx >>> 16, e))
    ∧ (processMigrated sys size 0 l).scheduled
      = (l.filter fun e => !(e.ts == 0)).map
          (fun e => (if e.ctx = NO_CONTEXT then 0 else sys e.ctx >>> 16, e.ts, e)) := by
  intro l
  induction l with
  | nil => exact ⟨rfl, rfl⟩
  | cons e rest ih =>
    obtain ⟨ih1, ih2⟩ := ih
    by_cases h0 : e.ts = 0
    · simp [processMigrated, h0, ih1, ih2, List.filter_cons]
    · by_cases hc : e.ctx = NO_CONTEXT
      · simp [processMigrated, h0, hc, ih1, ih2, List.filter_cons]
      · simp [processMigrated, h0, hc, hsize, ih1, ih2, List.filter_cons]

/-- C6: `Partition()` drains every event of the staging LP's scheduler and
processes them in `(timestamp, sequence)` order (the processing order is
a sorted permutation of the staged events); a drained event with
timestamp 0 is invoked immediately, in drain order, on the LP owning its
context (the staging LP 0 when the context is `NO_CONTEXT`); a
nonzero-timestamp event with no context is re-scheduled on the
staging/default LP at its original timestamp; and any other event is
re-scheduled via `ScheduleWithContext`, routed to the LP owning the
context node (`systemId >> 16`), at its original timestamp.  Hypotheses:
the LP registry holds more than the single staging LP after `EnableNew`
(`size ≠ 1`) and the staging LP's clock is still at 0 when `Partition`
runs. -/
theorem Partition_event_migration (pending : List MigEvent) (sys : Nat → Nat)
    (size now0 : Nat) (hsize : size ≠ 1) (hnow : now0 = 0) :
    List.Perm (migrationOrder pending) pending
    ∧ (migrationOrder pending).Sorted keyLe
    ∧ (migrate pending sys size now0).invoked
        = ((migrationOrder pending).filter fun e => e.ts == 0).map
            (fun e => (if e.ctx = NO_CONTEXT then 0 else sys e.ctx >>> 16, e))
    ∧ (migrate pending sys size now0).scheduled
        = ((migrationOrder pending).filter fun e => !(e.ts == 0)).map
            (fun e => (if e.ctx = NO_CONTEXT then 0 else sys e.ctx >>> 16, e.ts, e)) := by
  subst hnow
  obtain ⟨h1, h2⟩ := processMigrated_char sys size hsize (migrationOrder pending)
  exact ⟨migrationOrder_perm pending, migrationOrder_sorted pending, h1, h2⟩

theorem Partition_event_migration_witness :
    (3 : Nat) ≠ 1
    ∧ (migrate [⟨5, 3, 2, 11⟩, ⟨0, NO_CONTEXT, 1, 10⟩] (fun c => if c = 3 then 131072 else 0)
        3 0).invoked = [(0, ⟨0, NO_CONTEXT, 1, 10⟩)]
    ∧ (migrate [⟨5, 3, 2, 11⟩, ⟨0, NO_CONTEXT, 1, 10⟩] (fun c => if c = 3 then 131072 else 0)
        3 0).scheduled = [(2, 5, ⟨5, 3, 2, 11⟩)] := by
  have h := Partition_event_migration [⟨5, 3, 2, 11⟩, ⟨0, NO_CONTEXT, 1, 10⟩]
    (fun c => if c = 3 then 131072 else 0) 3 0 (by decide) rfl
  refine ⟨by decide, ?_, ?_⟩
  · rw [h.2.2.1]
    decide
  · rw [h.2.2.2]
    decide

end HybridSim
